import Mathlib

/-!
# Input helpers of `stdlib/c/io.c`

A shallow embedding of the readers of `src/stdlib/c/io.c`.

* The standard input stream is the list of bytes that have not been read yet
  (`List Char`, one `Char` per byte); the empty list is end of input.  Every
  reader takes the stream and returns, next to its result, the stream it
  leaves behind, so the input cursor is explicit.
* A byte of memory that has never been written is `none` (indeterminate);
  a byte holding `c` is `some c`.  The same convention is used for the local
  variables of the scalar readers.
* The C library calls made by the source (`malloc`, `fgets`, `scanf`) are
  embedded after ISO C (7.22.3.4, 7.21.7.2, 7.21.6.2).  A store outside the
  bounds of a buffer and a conversion whose result the destination type
  cannot represent have no defined behaviour: the embedding returns `none`
  for them.  `malloc` is assumed to succeed and the stream to have no read
  error.
-/

namespace Joelang

/-! ## Memory -/

/-- One byte of memory: `none` while indeterminate, `some c` once written. -/
abbrev Cell := Option Char

/-- The call `malloc(n)`: a fresh block of `n` indeterminate bytes. -/
def malloc (n : Nat) : List Cell := List.replicate n none

/-- The assignment `buf[i] = c`; `none` when `i` is outside the block. -/
def store (buf : List Cell) (i : Nat) (c : Char) : Option (List Cell) :=
  if i < buf.length then some (buf.set i (some c)) else none

/-! ## `fgets` -/

/-- State of `fgets` when its reading loop stops. -/
structure FgetsLoop where
  /-- index of the next byte to write -/
  pos : Nat
  /-- whether the loop stopped because the stream was at end of input -/
  eof : Bool
  /-- the array -/
  buf : List Cell
  /-- the stream -/
  stdin : List Char
deriving DecidableEq, Repr

/-- The reading loop of `fgets`: with room for `k` more bytes, take bytes from
the stream into `buf[i], buf[i+1], ...` until `k` bytes were taken, a new-line
was taken (it is kept), or the stream ends. -/
def fgetsLoop : Nat → Nat → List Cell → List Char → Option FgetsLoop
  | 0, i, buf, stdin => some ⟨i, false, buf, stdin⟩
  | _ + 1, i, buf, [] => some ⟨i, true, buf, []⟩
  | k + 1, i, buf, c :: stdin =>
    match store buf i c with
    | none => none
    | some buf1 =>
      if c = '\n' then some ⟨i + 1, false, buf1, stdin⟩
      else fgetsLoop k (i + 1) buf1 stdin

/-- The call `fgets(s, n, stdin)`: reads at most `n - 1` bytes, stopping after
a new-line, and writes a null byte after the last byte read.  When end of
input is met before any byte was read the array is left unchanged (the call
returns a null pointer, reported here as `false`).  For `n = 1` there is room
for no byte: no read is attempted, so end of input is not met, and the null
byte is stored (as glibc, musl and the BSD library do).  For `n = 0` nothing
is read or written. -/
def fgets (s : List Cell) (n : Nat) (stdin : List Char) :
    Option (Bool × List Cell × List Char) :=
  if n = 0 then some (false, s, stdin)
  else
    match fgetsLoop (n - 1) 0 s stdin with
    | none => none
    | some st =>
      if st.eof && st.pos == 0 then some (false, s, st.stdin)
      else
        match store st.buf st.pos '\x00' with
        | none => none
        | some buf1 => some (true, buf1, st.stdin)

/-! ## The string readers -/

/-- Source `readStr`: `str = malloc(256); fgets(str, 256, stdin); return str;`.
The result is the block `str` points to and the stream left behind; the value
returned by `fgets` is discarded, as in the source. -/
def readStr (stdin : List Char) : Option (List Cell × List Char) :=
  let str := malloc 256
  match fgets str 256 stdin with
  | none => none
  | some (_, str1, stdin1) => some (str1, stdin1)

/-- Source `readStrN`: `str = malloc(n); fgets(str, n, stdin); return str;`. -/
def readStrN (n : Nat) (stdin : List Char) : Option (List Cell × List Char) :=
  let str := malloc n
  match fgets str n stdin with
  | none => none
  | some (_, str1, stdin1) => some (str1, stdin1)

/-- The bytes of a block that have been written, up to the first
indeterminate byte. -/
def written (buf : List Cell) : List Char :=
  (buf.takeWhile Option.isSome).filterMap id

/-- The content of a returned block: the written bytes before the terminator
that `fgets` stored last. -/
def content (buf : List Cell) : List Char := (written buf).dropLast

/-- The C string a block holds: the bytes before the first null byte; `none`
when an indeterminate byte comes before any null byte. -/
def cString : List Cell → Option (List Char)
  | [] => none
  | none :: _ => none
  | some c :: buf => if c = '\x00' then some [] else (cString buf).map (c :: ·)

/-! ## `scanf` -/

/-- The C-locale `isspace`: space, `\t`, `\n`, `\v`, `\f`, `\r`. -/
def isspace (c : Char) : Bool :=
  c = ' ' || c = '\t' || c = '\n' || c = '\x0b' || c = '\x0c' || c = '\r'

/-- The `isdigit` of C: `'0'` to `'9'`. -/
def isdigit (c : Char) : Bool := 48 ≤ c.toNat && c.toNat ≤ 57

/-- The C-locale `isprint`: the bytes `0x20` to `0x7e`. -/
def isprint (c : Char) : Bool := 32 ≤ c.toNat && c.toNat ≤ 126

/-- An integer type of C: its signedness and its width in bits. -/
structure IntType where
  /-- `true` for the signed types -/
  signed : Bool
  /-- width in bits -/
  bits : Nat
deriving DecidableEq, Repr

/-- Least value of an integer type (two's complement). -/
def IntType.minVal (t : IntType) : Int :=
  if t.signed then -(2 ^ (t.bits - 1) : Int) else 0

/-- Greatest value of an integer type. -/
def IntType.maxVal (t : IntType) : Int :=
  if t.signed then (2 ^ (t.bits - 1) : Int) - 1 else (2 ^ t.bits : Int) - 1

/-- Whether `v` is a value of the type. -/
def IntType.inRange (t : IntType) (v : Int) : Prop := t.minVal ≤ v ∧ v ≤ t.maxVal

instance (t : IntType) (v : Int) : Decidable (t.inRange v) := by
  unfold IntType.inRange; infer_instance

/-- The widths the platform gives the integer types the source uses; the
source does not fix them. -/
structure DataModel where
  /-- bits of `char` -/
  charBits : Nat
  /-- bits of `short` -/
  shortBits : Nat
  /-- bits of `int` -/
  intBits : Nat
  /-- bits of `long` -/
  longBits : Nat
  /-- bits of `long long` -/
  longLongBits : Nat
deriving DecidableEq, Repr

/-- The widths of 64-bit Linux and macOS. -/
def LP64 : DataModel := ⟨8, 16, 32, 64, 64⟩

/-- The directive's first step: input white space is skipped. -/
def skipSpace (stdin : List Char) : List Char := stdin.dropWhile isspace

/-- The optional sign of an integer input item: whether it is `-`, and the
stream after it. -/
def readSign : List Char → Bool × List Char
  | '-' :: stdin => (true, stdin)
  | '+' :: stdin => (false, stdin)
  | stdin => (false, stdin)

/-- Base-10 accumulation over the digits of the item, as `strtol` does. -/
def strtoNat (ds : List Char) : Nat :=
  ds.foldl (fun acc c => acc * 10 + (c.toNat - 48)) 0

/-- The value a `%d`-family (signed) or `%u`-family (unsigned) conversion
produces from the sign and the magnitude of the item; `none` when the
destination type cannot represent it.  For the unsigned types a leading `-`
negates in the type, as `strtoul` does. -/
def convertInt (t : IntType) (neg : Bool) (mag : Nat) : Option Int :=
  if t.signed then
    let v : Int := if neg then -(mag : Int) else (mag : Int)
    if t.inRange v then some v else none
  else if (mag : Int) ≤ t.maxVal then
    some (if neg then ((2 ^ t.bits - mag) % 2 ^ t.bits : Nat) else (mag : Int))
  else none

/-- The call `scanf(fmt, &var)` for one integer directive (`%d`, `%ld`, `%u`,
`%hhu`, ...) whose destination has type `t` and currently holds `var`:
white space is skipped, the longest prefix of the stream that is a prefix of
an optionally signed digit sequence is taken as the input item, and when it
has a digit its value is stored.  Without a digit nothing is stored (the
bytes taken so far stay consumed).  The count `scanf` returns is not part of
the result: the source never looks at it. -/
def scanfInt (t : IntType) (var : Option Int) (stdin : List Char) :
    Option (Option Int × List Char) :=
  let (neg, afterSign) := readSign (skipSpace stdin)
  let (ds, rest) := afterSign.span isdigit
  if ds = [] then some (var, rest)
  else
    match convertInt t neg (strtoNat ds) with
    | none => none
    | some v => some (some v, rest)

/-- The C-locale `tolower`. -/
def tolower (c : Char) : Char :=
  if 65 ≤ c.toNat && c.toNat ≤ 90 then Char.ofNat (c.toNat + 32) else c

/-- The `isxdigit` of C: a digit or a letter `a` to `f` in either case. -/
def isxdigit (c : Char) : Bool :=
  isdigit c || (97 ≤ (tolower c).toNat && (tolower c).toNat ≤ 102)

/-- A character allowed between the parentheses of `nan(...)`: a digit, a
letter or an underscore. -/
def isnchar (c : Char) : Bool :=
  isdigit c || (97 ≤ (tolower c).toNat && (tolower c).toNat ≤ 122) || c = '_'

/-- The longest prefix of the stream that agrees with a prefix of the
lower-case `word`, ignoring case; and the stream after it. -/
def matchWord : List Char → List Char → List Char × List Char
  | w :: ws, c :: cs =>
    if tolower c = w then ((c :: (matchWord ws cs).1), (matchWord ws cs).2)
    else ([], c :: cs)
  | _, cs => ([], cs)

/-- The sign characters of an input item taken from the stream (at most one),
and the stream after them. -/
def signChars : List Char → List Char × List Char
  | '-' :: stdin => (['-'], stdin)
  | '+' :: stdin => (['+'], stdin)
  | stdin => ([], stdin)

/-- The digit part of a floating item, `digits [. digits]` with `digit` the
digit test of the base: the bytes taken, whether they hold at least one digit,
and the stream after them. -/
def scanMantissa (digit : Char → Bool) (stdin : List Char) :
    List Char × Bool × List Char :=
  let (d1, r1) := stdin.span digit
  match r1 with
  | '.' :: r2 =>
    let (d2, r3) := r2.span digit
    (d1 ++ '.' :: d2, !(d1.isEmpty && d2.isEmpty), r3)
  | _ => (d1, !d1.isEmpty, r1)

/-- The optional exponent part of a floating item, `marker [sign] digits` with
`marker` being `e` or `p` in either case: the bytes taken, whether they are
empty or a complete exponent, and the stream after them. -/
def scanExponent (marker : Char) : List Char → List Char × Bool × List Char
  | [] => ([], true, [])
  | c :: stdin =>
    if tolower c = marker then
      let (sg, r1) := signChars stdin
      let (ds, r2) := r1.span isdigit
      (c :: (sg ++ ds), !ds.isEmpty, r2)
    else ([], true, c :: stdin)

/-- A mantissa followed by its optional exponent: the bytes taken, whether
they are a complete numeral, and the stream after them. -/
def scanNumber (digit : Char → Bool) (marker : Char) (stdin : List Char) :
    List Char × Bool × List Char :=
  let (mt, ok, r) := scanMantissa digit stdin
  if ok then
    let (ex, okx, r1) := scanExponent marker r
    (mt ++ ex, okx, r1)
  else (mt, false, r)

/-- The part of a floating input item after its sign, as `strtod` expects it:
`inf` or `infinity`, `nan` or `nan(...)`, or a hexadecimal (after `0x`) or
decimal mantissa with optional exponent.  The bytes taken are the longest
prefix of the stream that is a prefix of such a sequence; the flag tells
whether they are a complete one. -/
def scanFloatBody (stdin : List Char) : List Char × Bool × List Char :=
  match stdin with
  | [] => ([], false, [])
  | c :: _ =>
    if tolower c = 'i' then
      let (t, r) := matchWord ['i', 'n', 'f', 'i', 'n', 'i', 't', 'y'] stdin
      (t, t.length == 3 || t.length == 8, r)
    else if tolower c = 'n' then
      let (t, r) := matchWord ['n', 'a', 'n'] stdin
      if t.length == 3 then
        match r with
        | '(' :: r1 =>
          let (ns, r2) := r1.span isnchar
          match r2 with
          | ')' :: r3 => (t ++ '(' :: (ns ++ [')']), true, r3)
          | _ => (t ++ '(' :: ns, false, r2)
        | _ => (t, true, r)
      else (t, false, r)
    else
      match stdin with
      | '0' :: x :: cs1 =>
        if tolower x = 'x' then
          let (t, ok, r) := scanNumber isxdigit 'p' cs1
          ('0' :: x :: t, ok, r)
        else scanNumber isdigit 'e' stdin
      | _ => scanNumber isdigit 'e' stdin

/-- The call `scanf(fmt, &var)` for one floating directive (`%f`, `%lf`,
`%Lf`) whose destination currently holds `var`.  White space is skipped, the
input item is taken, and when it is a complete sequence its value `conv item`
is stored; otherwise nothing is stored.  The floating type `F` and the
conversion `conv` of the digits to it are parameters. -/
def scanfFloat {F : Type} (conv : List Char → F) (var : Option F) (stdin : List Char) :
    Option F × List Char :=
  let (sg, r1) := signChars (skipSpace stdin)
  let (body, ok, r2) := scanFloatBody r1
  if ok then (some (conv (sg ++ body)), r2) else (var, r2)

/-- The call `scanf("%c", &var)`: the next byte is stored, white space
included; at end of input nothing is stored. -/
def scanfChar (var : Option Char) : List Char → Option Char × List Char
  | [] => (var, [])
  | c :: stdin => (some c, stdin)

/-! ## The scalar readers -/

/-- Source `readInt`: `int i; scanf("%d", &i); return i;`. -/
def readInt (m : DataModel) (stdin : List Char) : Option (Option Int × List Char) :=
  let i : Option Int := none
  scanfInt ⟨true, m.intBits⟩ i stdin

/-- Source `readFloat`: `float f; scanf("%f", &f); return f;`. -/
def readFloat {F : Type} (strtof : List Char → F) (stdin : List Char) :
    Option F × List Char :=
  let f : Option F := none
  scanfFloat strtof f stdin

/-- Source `readDouble`: `double d; scanf("%lf", &d); return d;`. -/
def readDouble {F : Type} (strtod : List Char → F) (stdin : List Char) :
    Option F × List Char :=
  let d : Option F := none
  scanfFloat strtod d stdin

/-- Source `readChar`: `char c; scanf("%c", &c); return c;`. -/
def readChar (stdin : List Char) : Option Char × List Char :=
  let c : Option Char := none
  scanfChar c stdin

/-- Source `readLong`: `long l; scanf("%ld", &l); return l;`. -/
def readLong (m : DataModel) (stdin : List Char) : Option (Option Int × List Char) :=
  let l : Option Int := none
  scanfInt ⟨true, m.longBits⟩ l stdin

/-- Source `readLongLong`: `long long ll; scanf("%lld", &ll); return ll;`. -/
def readLongLong (m : DataModel) (stdin : List Char) : Option (Option Int × List Char) :=
  let ll : Option Int := none
  scanfInt ⟨true, m.longLongBits⟩ ll stdin

/-- Source `readShort`: `short s; scanf("%hd", &s); return s;`. -/
def readShort (m : DataModel) (stdin : List Char) : Option (Option Int × List Char) :=
  let s : Option Int := none
  scanfInt ⟨true, m.shortBits⟩ s stdin

/-- Source `readLongDouble`: `long double ld; scanf("%Lf", &ld); return ld;`. -/
def readLongDouble {F : Type} (strtold : List Char → F) (stdin : List Char) :
    Option F × List Char :=
  let ld : Option F := none
  scanfFloat strtold ld stdin

/-- Source `readUnsignedInt`: `unsigned int ui; scanf("%u", &ui); return ui;`. -/
def readUnsignedInt (m : DataModel) (stdin : List Char) : Option (Option Int × List Char) :=
  let ui : Option Int := none
  scanfInt ⟨false, m.intBits⟩ ui stdin

/-- Source `readUnsignedLong`: `unsigned long ul; scanf("%lu", &ul); return ul;`. -/
def readUnsignedLong (m : DataModel) (stdin : List Char) : Option (Option Int × List Char) :=
  let ul : Option Int := none
  scanfInt ⟨false, m.longBits⟩ ul stdin

/-- Source `readUnsignedLongLong`:
`unsigned long long ull; scanf("%llu", &ull); return ull;`. -/
def readUnsignedLongLong (m : DataModel) (stdin : List Char) :
    Option (Option Int × List Char) :=
  let ull : Option Int := none
  scanfInt ⟨false, m.longLongBits⟩ ull stdin

/-- Source `readUnsignedShort`: `unsigned short us; scanf("%hu", &us); return us;`. -/
def readUnsignedShort (m : DataModel) (stdin : List Char) : Option (Option Int × List Char) :=
  let us : Option Int := none
  scanfInt ⟨false, m.shortBits⟩ us stdin

/-- Source `readUnsignedChar`: `unsigned char uc; scanf("%hhu", &uc); return uc;`. -/
def readUnsignedChar (m : DataModel) (stdin : List Char) : Option (Option Int × List Char) :=
  let uc : Option Int := none
  scanfInt ⟨false, m.charBits⟩ uc stdin

/-! ## Reference notions used to state the properties -/

/-- Value of a digit character. -/
def digitVal (c : Char) : Nat := c.toNat - 48

/-- Positional value of a digit string: each digit weighs a power of ten
given by the number of digits after it. -/
def decimalValue : List Char → Nat
  | [] => 0
  | c :: cs => digitVal c * 10 ^ cs.length + decimalValue cs

/-- A sign prefix of a decimal numeral: none, `+` or `-`. -/
def IsSign (sign : List Char) : Prop := sign = [] ∨ sign = ['+'] ∨ sign = ['-']

instance (sign : List Char) : Decidable (IsSign sign) := by
  unfold IsSign; infer_instance

/-- Numeric value of the numeral `sign ++ ds`. -/
def numeralValue (sign ds : List Char) : Int :=
  if sign = ['-'] then -(decimalValue ds : Int) else (decimalValue ds : Int)

/-- The byte after a numeral cannot continue it: end of input or a non-digit. -/
def EndsNumeral (rest : List Char) : Prop := ∀ c ∈ rest.head?, isdigit c = false

instance (rest : List Char) : Decidable (EndsNumeral rest) := by
  unfold EndsNumeral; infer_instance

/-- The stream is exhausted or malformed for an integer directive: after its
leading white space it is at end of input, or at a byte that is not a digit
and, when that byte is a sign, is not followed by a digit. -/
def NoInteger (s : List Char) : Prop :=
  ∃ w rest, s = w ++ rest ∧ (∀ c ∈ w, isspace c = true) ∧
    ∀ c ∈ rest.head?, isspace c = false ∧ isdigit c = false ∧
      ((c = '-' ∨ c = '+') → EndsNumeral rest.tail)

/-- Whether the stream starts with the lower-case `word`, ignoring case. -/
def startsWithCI (word s : List Char) : Bool := (s.take word.length).map tolower == word

/-- The stream does not start with the body of a floating numeral: its first
byte is not a digit, it is not a `.` followed by a digit, and it does not
start with `inf` or `nan` in any case. -/
def FloatFree (s : List Char) : Prop :=
  EndsNumeral s ∧ (∀ c ∈ s.head?, c = '.' → EndsNumeral s.tail) ∧
    startsWithCI ['i', 'n', 'f'] s = false ∧ startsWithCI ['n', 'a', 'n'] s = false

instance (s : List Char) : Decidable (FloatFree s) := by
  unfold FloatFree; infer_instance

/-- The stream is exhausted or malformed for a floating directive: after its
leading white space, and after the sign if one comes next, it is at end of
input or does not start with the body of a floating numeral. -/
def NoFloat (s : List Char) : Prop :=
  ∃ w rest, s = w ++ rest ∧ (∀ c ∈ w, isspace c = true) ∧
    (∀ c ∈ rest.head?, isspace c = false) ∧ FloatFree rest ∧
    ∀ c ∈ rest.head?, (c = '-' ∨ c = '+') → FloatFree rest.tail

/-- The input after its first new-line; empty when it has none. -/
def afterNewline (stdin : List Char) : List Char :=
  (stdin.dropWhile (fun c => c != '\n')).tail

/-- The bytes the loop of `fgets` takes when it has room for `k`: the first
`k` bytes of the stream, cut after the first new-line among them. -/
def takeLine : Nat → List Char → List Char
  | 0, _ => []
  | _ + 1, [] => []
  | k + 1, c :: cs => if c = '\n' then [c] else c :: takeLine k cs

/-- Whether the loop of `fgets` with room for `k` stops at end of input. -/
def hitsEof : Nat → List Char → Bool
  | 0, _ => false
  | _ + 1, [] => true
  | k + 1, c :: cs => if c = '\n' then false else hitsEof k cs

/-! ## Lemmas on `fgets` -/

theorem store_at_end (pre : List Cell) (m : Nat) (c : Char) :
    store (pre ++ List.replicate (m + 1) none) pre.length c =
      some ((pre ++ [some c]) ++ List.replicate m none) := by
  induction pre with
  | nil => simp [store, List.replicate_succ]
  | cons a pre ih =>
    simp only [store, List.cons_append, List.length_cons, List.set_cons_succ,
      Nat.add_lt_add_iff_right] at ih ⊢
    split at ih
    · rename_i h
      simp only [h, if_true]
      simpa using ih
    · simp at ih

theorem takeLine_length_le (k : Nat) (s : List Char) : (takeLine k s).length ≤ k := by
  induction k generalizing s with
  | zero => simp [takeLine]
  | succ k ih =>
    cases s with
    | nil => simp [takeLine]
    | cons c cs =>
      simp only [takeLine]
      split
      · simp
      · simpa using ih cs

theorem takeLine_append_drop (k : Nat) (s : List Char) :
    takeLine k s ++ s.drop (takeLine k s).length = s := by
  induction k generalizing s with
  | zero => simp [takeLine]
  | succ k ih =>
    cases s with
    | nil => simp [takeLine]
    | cons c cs =>
      simp only [takeLine]
      split
      · simp
      · simpa using ih cs

theorem fgetsLoop_eq (k : Nat) (pre : List Cell) (m : Nat) (s : List Char) (hk : k ≤ m) :
    fgetsLoop k pre.length (pre ++ List.replicate m none) s =
      some ⟨pre.length + (takeLine k s).length, hitsEof k s,
        (pre ++ (takeLine k s).map some) ++ List.replicate (m - (takeLine k s).length) none,
        s.drop (takeLine k s).length⟩ := by
  induction k generalizing pre m s with
  | zero => simp [fgetsLoop, takeLine, hitsEof]
  | succ k ih =>
    cases s with
    | nil => simp [fgetsLoop, takeLine, hitsEof]
    | cons c cs =>
      obtain ⟨m, rfl⟩ : ∃ m1, m = m1 + 1 := ⟨m - 1, by omega⟩
      simp only [fgetsLoop, store_at_end, takeLine, hitsEof]
      by_cases hc : c = '\n'
      · simp [hc]
      · have h := ih (pre ++ [some c]) m cs (by omega)
        simp only [List.length_append, List.length_singleton] at h
        simp only [hc, if_false, h]
        simp [Nat.add_assoc, Nat.add_comm 1]

theorem takeLine_eq_nil_iff (k : Nat) (s : List Char) :
    takeLine (k + 1) s = [] ↔ s = [] := by
  cases s with
  | nil => simp [takeLine]
  | cons c cs =>
    simp only [takeLine]
    split <;> simp

theorem hitsEof_nil (k : Nat) : hitsEof (k + 1) [] = true := rfl

/-- What `fgets` does to a fresh block of `n ≥ 1` bytes. -/
theorem fgets_malloc (n : Nat) (s : List Char) (hn : 1 ≤ n) :
    fgets (malloc n) n s =
      if s = [] ∧ 2 ≤ n then some (false, malloc n, [])
      else some (true,
        (takeLine (n - 1) s ++ ['\x00']).map some ++
          List.replicate (n - 1 - (takeLine (n - 1) s).length) none,
        s.drop (takeLine (n - 1) s).length) := by
  obtain ⟨k, rfl⟩ : ∃ k, n = k + 1 := ⟨n - 1, by omega⟩
  have hloop := fgetsLoop_eq k [] (k + 1) s (by omega)
  simp only [List.length_nil, List.nil_append, Nat.zero_add] at hloop
  have hlen := takeLine_length_le k s
  simp only [fgets, malloc, Nat.add_sub_cancel, hloop, Nat.succ_ne_zero, if_false]
  by_cases hs : s = [] ∧ 2 ≤ k + 1
  · obtain ⟨rfl, hk⟩ := hs
    obtain ⟨j, rfl⟩ : ∃ j, k = j + 1 := ⟨k - 1, by omega⟩
    simp [takeLine, hitsEof]
  · rw [if_neg hs]
    have hcond : (hitsEof k s && (takeLine k s).length == 0) = false := by
      cases k with
      | zero => simp [hitsEof]
      | succ j =>
        cases s with
        | nil => exact absurd ⟨rfl, by omega⟩ hs
        | cons c cs =>
          have : takeLine (j + 1) (c :: cs) ≠ [] := by
            rw [Ne, takeLine_eq_nil_iff]; simp
          have hpos : (takeLine (j + 1) (c :: cs)).length ≠ 0 := by
            simpa using this
          simp [hpos]
    simp only [hcond, Bool.false_eq_true, if_false]
    obtain ⟨r, hr⟩ : ∃ r, k + 1 - (takeLine k s).length = r + 1 :=
      ⟨k - (takeLine k s).length, by omega⟩
    have hst := store_at_end ((takeLine k s).map some) r '\x00'
    simp only [List.length_map] at hst
    rw [hr, hst]
    have hr2 : k - (takeLine k s).length = r := by omega
    simp [hr2]

/-- What `readStrN` returns for `n ≥ 1`. -/
theorem readStrN_eq (n : Nat) (s : List Char) (hn : 1 ≤ n) :
    readStrN n s =
      if s = [] ∧ 2 ≤ n then some (malloc n, [])
      else some (
        (takeLine (n - 1) s ++ ['\x00']).map some ++
          List.replicate (n - 1 - (takeLine (n - 1) s).length) none,
        s.drop (takeLine (n - 1) s).length) := by
  simp only [readStrN, fgets_malloc n s hn]
  by_cases hs : s = [] ∧ 2 ≤ n
  · simp only [if_pos hs]
  · simp only [if_neg hs]

theorem readStr_eq_readStrN (s : List Char) : readStr s = readStrN 256 s := rfl

theorem takeLine_of_line (k : Nat) (line rest : List Char)
    (hline : '\n' ∉ line) (hlen : line.length < k) :
    takeLine k (line ++ '\n' :: rest) = line ++ ['\n'] := by
  induction line generalizing k with
  | nil =>
    obtain ⟨j, rfl⟩ : ∃ j, k = j + 1 := ⟨k - 1, by simp at hlen; omega⟩
    simp [takeLine]
  | cons c cs ih =>
    obtain ⟨j, rfl⟩ : ∃ j, k = j + 1 := ⟨k - 1, by simp at hlen; omega⟩
    have hc : c ≠ '\n' := fun h => hline (by simp [h])
    have hcs : '\n' ∉ cs := fun h => hline (by simp [h])
    have h := ih j hcs (by simpa using hlen)
    simp only [List.cons_append, takeLine, hc, if_false, List.cons.injEq, true_and]
    exact h

theorem takeLine_of_no_newline (k : Nat) (s : List Char)
    (hlen : k ≤ s.length) (hnl : '\n' ∉ s.take k) :
    takeLine k s = s.take k := by
  induction k generalizing s with
  | zero => simp [takeLine]
  | succ k ih =>
    cases s with
    | nil => simp at hlen
    | cons c cs =>
      have hc : c ≠ '\n' := fun h => hnl (by simp [h])
      have hcs : '\n' ∉ cs.take k := fun h => hnl (by simp [h])
      simp only [takeLine, hc, if_false, List.take_succ_cons]
      rw [ih cs (by simpa using hlen) hcs]

theorem takeLine_newline_last (k : Nat) (s : List Char) (i : Nat)
    (h : i < (takeLine k s).length) (hnl : (takeLine k s)[i] = '\n') :
    i + 1 = (takeLine k s).length := by
  induction k generalizing s i with
  | zero => simp [takeLine] at h
  | succ k ih =>
    cases s with
    | nil => simp [takeLine] at h
    | cons c cs =>
      by_cases hc : c = '\n'
      · simp only [takeLine, hc, if_true, List.length_singleton] at h ⊢
        omega
      · simp only [takeLine, hc, if_false] at h hnl ⊢
        cases i with
        | zero => simp at hnl; exact absurd hnl hc
        | succ j =>
          simp only [List.length_cons, Nat.add_lt_add_iff_right] at h
          simp only [List.getElem_cons_succ] at hnl
          simpa using ih cs j h hnl

theorem written_map_some (cs : List Char) (m : Nat) :
    written (cs.map some ++ List.replicate m none) = cs := by
  induction cs with
  | nil =>
    cases m <;> simp [written, List.replicate_succ]
  | cons c cs ih =>
    simp only [written, List.map_cons, List.cons_append, List.takeWhile_cons,
      Option.isSome_some, if_true, List.filterMap_cons, id] at ih ⊢
    rw [ih]

theorem written_malloc (n : Nat) : written (malloc n) = [] := by
  cases n <;> simp [written, malloc, List.replicate_succ]

theorem content_terminated (cs : List Char) (m : Nat) :
    content ((cs ++ ['\x00']).map some ++ List.replicate m none) = cs := by
  rw [content, written_map_some, List.dropLast_concat]

theorem content_malloc (n : Nat) : content (malloc n) = [] := by
  simp [content, written_malloc]

/-- The stream is split by `readStrN` into the content of the returned block
and the stream left behind. -/
theorem readStrN_split (n : Nat) (s : List Char) (hn : 1 ≤ n) :
    ∃ buf rest, readStrN n s = some (buf, rest) ∧ buf.length = n ∧
      content buf = takeLine (n - 1) s ∧ content buf ++ rest = s ∧
      (buf = malloc n ∨
        buf = (content buf ++ ['\x00']).map some ++
          List.replicate (n - ((content buf).length + 1)) none) := by
  rw [readStrN_eq n s hn]
  have hlen := takeLine_length_le (n - 1) s
  by_cases hs : s = [] ∧ 2 ≤ n
  · obtain ⟨rfl, h2⟩ := hs
    obtain ⟨j, rfl⟩ : ∃ j, n = j + 2 := ⟨n - 2, by omega⟩
    refine ⟨malloc (j + 2), [], by simp, by simp [malloc], ?_, ?_, Or.inl rfl⟩
    · simp [content_malloc, takeLine]
    · simp [content_malloc]
  · rw [if_neg hs]
    refine ⟨_, _, rfl, ?_, content_terminated _ _, ?_, Or.inr ?_⟩
    · simp; omega
    · rw [content_terminated]; exact takeLine_append_drop _ _
    · rw [content_terminated]
      congr 2
      omega

/-! ## Lemmas on `scanf` -/

theorem skipSpace_append (w s : List Char) (hw : ∀ c ∈ w, isspace c = true) :
    skipSpace (w ++ s) = skipSpace s := by
  induction w with
  | nil => rfl
  | cons c w ih =>
    have hc : isspace c = true := hw c (by simp)
    have hw1 : ∀ x ∈ w, isspace x = true := fun x hx => hw x (by simp [hx])
    simp only [skipSpace, List.cons_append, List.dropWhile_cons, hc, if_true] at ih ⊢
    exact ih hw1

theorem skipSpace_cons_of_not_space (c : Char) (s : List Char) (hc : isspace c = false) :
    skipSpace (c :: s) = c :: s := by
  simp [skipSpace, List.dropWhile_cons, hc]

theorem isdigit_not_space (c : Char) (hc : isdigit c = true) : isspace c = false := by
  by_contra h
  have h1 : isspace c = true := by simpa using h
  simp only [isspace, Bool.or_eq_true, decide_eq_true_eq] at h1
  rcases h1 with ((((h1 | h1) | h1) | h1) | h1) | h1 <;>
    · subst h1
      revert hc
      decide

theorem isdigit_not_sign (c : Char) (hc : isdigit c = true) : c ≠ '-' ∧ c ≠ '+' := by
  constructor <;>
    · intro h
      subst h
      revert hc
      decide

theorem readSign_of_not_sign (c : Char) (s : List Char) (h1 : c ≠ '-') (h2 : c ≠ '+') :
    readSign (c :: s) = (false, c :: s) := by
  unfold readSign
  split
  · rename_i heq
    simp only [List.cons.injEq] at heq
    exact absurd heq.1 h1
  · rename_i heq
    simp only [List.cons.injEq] at heq
    exact absurd heq.1 h2
  · rfl

theorem readSign_nil : readSign [] = (false, []) := rfl

theorem readSign_minus (s : List Char) : readSign ('-' :: s) = (true, s) := rfl

theorem readSign_plus (s : List Char) : readSign ('+' :: s) = (false, s) := rfl

theorem span_digits (ds rest : List Char) (hd : ∀ c ∈ ds, isdigit c = true)
    (hrest : EndsNumeral rest) : (ds ++ rest).span isdigit = (ds, rest) := by
  induction ds with
  | nil =>
    cases rest with
    | nil => rfl
    | cons c cs =>
      have hc : isdigit c = false := hrest c (by simp)
      simp [List.span_eq_take_drop, List.takeWhile_cons, List.dropWhile_cons, hc]
  | cons d ds ih =>
    have hd0 : isdigit d = true := hd d (by simp)
    have hd1 : ∀ c ∈ ds, isdigit c = true := fun c hc => hd c (by simp [hc])
    have h := ih hd1
    simp only [List.span_eq_take_drop, Prod.mk.injEq] at h
    simp [List.span_eq_take_drop, List.takeWhile_cons, List.dropWhile_cons, hd0, h.1, h.2]

theorem foldl_digits (ds : List Char) (acc : Nat) :
    ds.foldl (fun a c => a * 10 + (c.toNat - 48)) acc =
      acc * 10 ^ ds.length + decimalValue ds := by
  induction ds generalizing acc with
  | nil => simp [decimalValue]
  | cons c cs ih =>
    simp only [List.foldl_cons, ih, decimalValue, digitVal, List.length_cons]
    ring

theorem strtoNat_eq_decimalValue (ds : List Char) : strtoNat ds = decimalValue ds := by
  simp [strtoNat, foldl_digits]

theorem convertInt_of_inRange (t : IntType) (neg : Bool) (mag : Nat)
    (h : t.inRange (if neg then -(mag : Int) else (mag : Int))) :
    convertInt t neg mag = some (if neg then -(mag : Int) else (mag : Int)) := by
  unfold convertInt
  by_cases hs : t.signed = true
  · simp only [hs, if_true, h]
  · have hs1 : t.signed = false := by simpa using hs
    have hpow : (1 : Int) ≤ 2 ^ t.bits := by
      have : (0 : Int) < 2 ^ t.bits := by positivity
      omega
    simp only [IntType.inRange, IntType.minVal, IntType.maxVal, hs1, Bool.false_eq_true,
      if_false] at h ⊢
    cases neg with
    | false =>
      simp only [Bool.false_eq_true, if_false] at h ⊢
      simp [h.2]
    | true =>
      simp only [if_true] at h ⊢
      have hm : mag = 0 := by omega
      subst hm
      simp
      omega

/-- An integer directive applied to a stream that starts with a numeral the
destination type can represent stores the numeral's value and leaves the
stream right after the numeral. -/
theorem scanfInt_numeral (t : IntType) (var : Option Int) (sign ds rest : List Char)
    (hsign : IsSign sign) (hne : ds ≠ []) (hd : ∀ c ∈ ds, isdigit c = true)
    (hrest : EndsNumeral rest) (hv : t.inRange (numeralValue sign ds)) :
    scanfInt t var (sign ++ ds ++ rest) = some (some (numeralValue sign ds), rest) := by
  obtain ⟨d, ds1, rfl⟩ : ∃ d ds1, ds = d :: ds1 := by
    cases ds with
    | nil => exact absurd rfl hne
    | cons d ds1 => exact ⟨d, ds1, rfl⟩
  have hd0 : isdigit d = true := hd d (by simp)
  have hspan := span_digits (d :: ds1) rest hd hrest
  have hsp : isspace d = false := isdigit_not_space d hd0
  have hns := isdigit_not_sign d hd0
  have key : ∀ (neg : Bool) (pre : List Char),
      readSign (skipSpace (pre ++ (d :: ds1) ++ rest)) = (neg, (d :: ds1) ++ rest) →
      t.inRange (if neg then -(decimalValue (d :: ds1) : Int) else (decimalValue (d :: ds1) : Int)) →
      scanfInt t var (pre ++ (d :: ds1) ++ rest) =
        some (some (if neg then -(decimalValue (d :: ds1) : Int)
          else (decimalValue (d :: ds1) : Int)), rest) := by
    intro neg pre hrs hin
    simp only [scanfInt, hrs, hspan, strtoNat_eq_decimalValue,
      convertInt_of_inRange t neg _ hin]
    simp
  rcases hsign with rfl | rfl | rfl
  · have := key false [] (by
      simp only [List.nil_append, List.cons_append]
      rw [skipSpace_cons_of_not_space d _ hsp, readSign_of_not_sign d _ hns.1 hns.2]) (by
      simpa [numeralValue] using hv)
    simpa [numeralValue] using this
  · have := key false ['+'] (by
      simp only [List.cons_append, List.nil_append]
      rw [skipSpace_cons_of_not_space '+' _ (by decide), readSign_plus]) (by
      simpa [numeralValue] using hv)
    simpa [numeralValue] using this
  · have := key true ['-'] (by
      simp only [List.cons_append, List.nil_append]
      rw [skipSpace_cons_of_not_space '-' _ (by decide), readSign_minus]) (by
      simpa [numeralValue] using hv)
    simpa [numeralValue] using this

/-- Leading white space does not change what an integer directive does. -/
theorem scanfInt_skip (t : IntType) (var : Option Int) (w s : List Char)
    (hw : ∀ c ∈ w, isspace c = true) :
    scanfInt t var (w ++ s) = scanfInt t var s := by
  simp only [scanfInt, skipSpace_append w s hw]

/-- An integer directive applied to a stream without an integer stores
nothing. -/
theorem scanfInt_noInteger (t : IntType) (var : Option Int) (s : List Char)
    (hs : NoInteger s) : ∃ tl, scanfInt t var s = some (var, tl) := by
  obtain ⟨w, rest, rfl, hw, hrest⟩ := hs
  rw [scanfInt_skip t var w rest hw]
  cases rest with
  | nil => exact ⟨[], by simp [scanfInt, skipSpace, readSign_nil, List.span_eq_take_drop]⟩
  | cons c tl =>
    obtain ⟨hsp, hdig, hsgn⟩ := hrest c (by simp)
    have hskip := skipSpace_cons_of_not_space c tl hsp
    by_cases hm : c = '-'
    · subst hm
      have hspan := span_digits [] tl (by simp) (hsgn (Or.inl rfl))
      simp only [List.nil_append] at hspan
      exact ⟨tl, by simp only [scanfInt, hskip, readSign_minus, hspan, if_true]⟩
    · by_cases hp : c = '+'
      · subst hp
        have hspan := span_digits [] tl (by simp) (hsgn (Or.inr rfl))
        simp only [List.nil_append] at hspan
        exact ⟨tl, by simp only [scanfInt, hskip, readSign_plus, hspan, if_true]⟩
      · have hspan := span_digits [] (c :: tl) (by simp) (by
          intro x hx
          simp only [List.head?_cons, Option.mem_def, Option.some.injEq] at hx
          subst hx
          exact hdig)
        simp only [List.nil_append] at hspan
        exact ⟨c :: tl, by simp only [scanfInt, hskip, readSign_of_not_sign c tl hm hp, hspan, if_true]⟩

theorem matchWord_short (a b c : Char) (w s : List Char)
    (h : startsWithCI [a, b, c] s = false) :
    (matchWord (a :: b :: c :: w) s).1.length < 3 := by
  rcases s with _ | ⟨c1, _ | ⟨c2, _ | ⟨c3, tl⟩⟩⟩
  · simp [matchWord]
  · simp only [matchWord]
    split <;> simp
  · simp only [matchWord]
    split
    · split <;> simp
    · simp
  · simp only [matchWord]
    by_cases h1 : tolower c1 = a
    · by_cases h2 : tolower c2 = b
      · by_cases h3 : tolower c3 = c
        · simp [startsWithCI, h1, h2, h3] at h
        · simp [h1, h2, h3]
      · simp [h1, h2]
    · simp [h1]

theorem scanNumber_floatFree (marker : Char) (s : List Char) (h : FloatFree s) :
    (scanNumber isdigit marker s).2.1 = false := by
  obtain ⟨hd, hdot, _, _⟩ := h
  have hspan := span_digits [] s (by simp) hd
  simp only [List.nil_append] at hspan
  rcases s with _ | ⟨c, cs⟩
  · simp [scanNumber, scanMantissa, hspan]
  · by_cases hc : c = '.'
    · subst hc
      have hcs : EndsNumeral cs := hdot '.' (by simp) rfl
      have hspan2 := span_digits [] cs (by simp) hcs
      simp only [List.nil_append] at hspan2
      simp only [scanNumber, scanMantissa, hspan, hspan2]
      simp
    · have hm : scanMantissa isdigit (c :: cs) = ([], false, c :: cs) := by
        simp only [scanMantissa, hspan]
        split
        · rename_i heq
          simp only [List.cons.injEq] at heq
          exact absurd heq.1 hc
        · simp
      simp only [scanNumber, hm]
      simp

theorem scanFloatBody_floatFree (s : List Char) (h : FloatFree s) :
    (scanFloatBody s).2.1 = false := by
  rcases s with _ | ⟨c, cs⟩
  · rfl
  · have hinf := matchWord_short 'i' 'n' 'f' ['i', 'n', 'i', 't', 'y'] (c :: cs) h.2.2.1
    have hnan := matchWord_short 'n' 'a' 'n' [] (c :: cs) h.2.2.2
    unfold scanFloatBody
    simp only
    split
    · have h3 : ((matchWord ['i', 'n', 'f', 'i', 'n', 'i', 't', 'y'] (c :: cs)).1.length == 3)
          = false := by
        simp only [beq_eq_false_iff_ne]; omega
      have h8 : ((matchWord ['i', 'n', 'f', 'i', 'n', 'i', 't', 'y'] (c :: cs)).1.length == 8)
          = false := by
        simp only [beq_eq_false_iff_ne]; omega
      simp only [h3, h8, Bool.or_false]
    · split
      · have h3 : ((matchWord ['n', 'a', 'n'] (c :: cs)).1.length == 3) = false := by
          simp only [beq_eq_false_iff_ne]; omega
        simp only [h3, Bool.false_eq_true, if_false]
      · split
        · rename_i heq
          simp only [List.cons.injEq] at heq
          have hd : isdigit c = false := h.1 c (by simp)
          rw [heq.1] at hd
          exact absurd hd (by decide)
        · exact scanNumber_floatFree 'e' (c :: cs) h

theorem signChars_of_not_sign (c : Char) (s : List Char) (h1 : c ≠ '-') (h2 : c ≠ '+') :
    signChars (c :: s) = ([], c :: s) := by
  unfold signChars
  split
  · rename_i heq
    simp only [List.cons.injEq] at heq
    exact absurd heq.1 h1
  · rename_i heq
    simp only [List.cons.injEq] at heq
    exact absurd heq.1 h2
  · rfl

theorem scanfFloat_skip {F : Type} (conv : List Char → F) (var : Option F)
    (w s : List Char) (hw : ∀ c ∈ w, isspace c = true) :
    scanfFloat conv var (w ++ s) = scanfFloat conv var s := by
  simp only [scanfFloat, skipSpace_append w s hw]

/-- A floating directive applied to a stream without a floating numeral stores
nothing. -/
theorem scanfFloat_noFloat {F : Type} (conv : List Char → F) (var : Option F)
    (s : List Char) (hs : NoFloat s) : ∃ tl, scanfFloat conv var s = (var, tl) := by
  obtain ⟨w, rest, rfl, hw, hsp, hfree, hsgn⟩ := hs
  rw [scanfFloat_skip conv var w rest hw]
  have fin : ∀ (sg r1 : List Char), signChars (skipSpace rest) = (sg, r1) → FloatFree r1 →
      ∃ tl, scanfFloat conv var rest = (var, tl) := by
    intro sg r1 hsc hff
    have hb := scanFloatBody_floatFree r1 hff
    rcases hbody : scanFloatBody r1 with ⟨body, ok, r2⟩
    rw [hbody] at hb
    simp only at hb
    subst hb
    exact ⟨r2, by simp only [scanfFloat, hsc, hbody, Bool.false_eq_true, if_false]⟩
  rcases rest with _ | ⟨c, tl⟩
  · exact fin [] [] rfl hfree
  · have hskip := skipSpace_cons_of_not_space c tl (hsp c (by simp))
    by_cases hm : c = '-'
    · subst hm
      exact fin ['-'] tl (by rw [hskip]; rfl) (hsgn '-' (by simp) (Or.inl rfl))
    · by_cases hp : c = '+'
      · subst hp
        exact fin ['+'] tl (by rw [hskip]; rfl) (hsgn '+' (by simp) (Or.inr rfl))
      · exact fin [] (c :: tl) (by rw [hskip, signChars_of_not_sign c tl hm hp]) hfree

/-- A stream whose first `k` bytes hold no new-line gives `readStrN (k + 1)`
exactly those `k` bytes. -/
theorem readStrN_of_no_newline (n : Nat) (s : List Char) (hn : 1 < n)
    (hlen : n - 1 ≤ s.length) (hnl : '\n' ∉ s.take (n - 1)) :
    readStrN n s = some ((s.take (n - 1) ++ ['\x00']).map some, s.drop (n - 1)) := by
  have hs : ¬ (s = [] ∧ 2 ≤ n) := by
    rintro ⟨rfl, _⟩
    simp at hlen
    omega
  rw [readStrN_eq n s (by omega), if_neg hs, takeLine_of_no_newline (n - 1) s hlen hnl]
  have hl : (s.take (n - 1)).length = n - 1 := by simp [hlen]
  simp [hl]

theorem readStrN_replicate (n k : Nat) (c : Char) (hc : c ≠ '\n') (hn : 1 < n)
    (hk : n - 1 ≤ k) :
    readStrN n (List.replicate k c) =
      some ((List.replicate (n - 1) c ++ ['\x00']).map some,
        List.replicate (k - (n - 1)) c) := by
  have hnl : '\n' ∉ (List.replicate k c).take (n - 1) := by
    intro h
    have h1 := List.mem_of_mem_take h
    rw [List.mem_replicate] at h1
    exact hc h1.2.symm
  rw [readStrN_of_no_newline n (List.replicate k c) hn (by simpa using hk) hnl,
    List.take_replicate, List.drop_replicate, Nat.min_eq_left hk]

/-! ## The embedding on concrete streams -/

theorem fgets_concrete :
    fgets (malloc 4) 4 "ab".toList = some (true, "ab\x00".toList.map some ++ [none], []) ∧
    fgets (malloc 4) 4 "a\nb".toList =
      some (true, "a\n\x00".toList.map some ++ [none], ['b']) ∧
    fgets (malloc 4) 4 "abcdef".toList = some (true, "abc\x00".toList.map some, "def".toList) ∧
    fgets (malloc 4) 4 [] = some (false, malloc 4, []) ∧
    fgets (malloc 2) 4 "abcdef".toList = none :=
  ⟨by decide, by decide, by decide, by decide, by decide⟩

theorem scanfInt_concrete :
    readInt LP64 "  -17x".toList = some (some (-17), ['x']) ∧
    readInt LP64 "007".toList = some (some 7, []) ∧
    readInt LP64 " -abc".toList = some (none, "abc".toList) ∧
    readInt LP64 "2147483647".toList = some (some 2147483647, []) ∧
    readInt LP64 "2147483648".toList = none ∧
    readLong LP64 "2147483648".toList = some (some 2147483648, []) ∧
    readUnsignedChar LP64 "255 ".toList = some (some 255, [' ']) ∧
    readUnsignedChar LP64 "256 ".toList = none := by
  decide

theorem scanfFloat_concrete :
    readFloat id " -1.5e+3x".toList = (some "-1.5e+3".toList, ['x']) ∧
    readFloat id ".5x".toList = (some ".5".toList, ['x']) ∧
    readFloat id "0x1.8p3 ".toList = (some "0x1.8p3".toList, [' ']) ∧
    readFloat id "-Infinity!".toList = (some "-Infinity".toList, ['!']) ∧
    readFloat id "nan(1_a)z".toList = (some "nan(1_a)".toList, ['z']) ∧
    readFloat id "100ergs".toList = (none, "rgs".toList) ∧
    readFloat id ".x".toList = (none, ['x']) ∧
    readFloat id "abc".toList = (none, "abc".toList) := by
  decide

/-! ## The properties -/

/-- C1: for every `N > 1` and every stream whose first line (the bytes
`line` before its first new-line) is shorter than `N - 1`, `readStrN N`
returns a block that holds the line, its new-line and then one null byte
(the bytes of the block after it stay untouched), and the stream left behind
is exactly what followed the new-line. -/
theorem readStrN_short_line (N : Nat) (line rest : List Char) (hN : 1 < N)
    (hline : '\n' ∉ line) (hlen : line.length < N - 1) :
    readStrN N (line ++ '\n' :: rest) =
      some ((line ++ ['\n', '\x00']).map some ++
        List.replicate (N - (line.length + 2)) none, rest) := by
  have hs : ¬ (line ++ '\n' :: rest = [] ∧ 2 ≤ N) := by simp
  rw [readStrN_eq N _ (by omega), if_neg hs, takeLine_of_line (N - 1) line rest hline hlen]
  have h1 : N - 1 - (line ++ ['\n']).length = N - (line.length + 2) := by
    simp only [List.length_append, List.length_singleton]
    omega
  have h2 : (line ++ '\n' :: rest).drop (line ++ ['\n']).length = rest := by
    have : line ++ '\n' :: rest = (line ++ ['\n']) ++ rest := by simp
    rw [this, List.drop_left]
  rw [h1, h2]
  simp

/-- Instance of C1: a two-byte line read with `N = 16`. -/
theorem readStrN_short_line_witness :
    readStrN 16 ("hi".toList ++ '\n' :: "there".toList) =
      some (("hi".toList ++ ['\n', '\x00']).map some ++
        List.replicate (16 - ("hi".toList.length + 2)) none, "there".toList) :=
  readStrN_short_line 16 "hi".toList "there".toList (by decide) (by decide) (by decide)

/-- C2: for every `N > 1` and every stream whose first `N - 1` bytes hold no
new-line, `readStrN N` returns exactly those `N - 1` bytes followed by the
null byte (the block is full) and leaves every later byte in the stream. -/
theorem readStrN_limit (N : Nat) (s : List Char) (hN : 1 < N)
    (hlen : N - 1 ≤ s.length) (hnl : '\n' ∉ s.take (N - 1)) :
    readStrN N s = some ((s.take (N - 1) ++ ['\x00']).map some, s.drop (N - 1)) :=
  readStrN_of_no_newline N s hN hlen hnl

/-- Instance of C2: on `"hello world\n"`, `readStrN 6` returns `"hello"` and
the null byte and leaves `" world\n"`. -/
theorem readStrN_limit_witness :
    readStrN 6 "hello world\n".toList =
      some ("hello\x00".toList.map some, " world\n".toList) :=
  readStrN_limit 6 "hello world\n".toList (by decide) (by decide) (by decide)

/-- C3: for each of the nine integer readers, every well-formed decimal
numeral `sign ++ ds` (an optional sign and at least one digit) whose value is
in the range of the reader's type, and every stream that starts with the
numeral followed by end of input or a byte that is not a digit: the reader
returns the numeral's value (and leaves the stream right after the numeral). -/
theorem integer_readers_value (m : DataModel) (sign ds rest : List Char)
    (hsign : IsSign sign) (hne : ds ≠ []) (hd : ∀ c ∈ ds, isdigit c = true)
    (hrest : EndsNumeral rest) :
    (IntType.inRange ⟨true, m.intBits⟩ (numeralValue sign ds) →
      readInt m (sign ++ ds ++ rest) = some (some (numeralValue sign ds), rest)) ∧
    (IntType.inRange ⟨true, m.longBits⟩ (numeralValue sign ds) →
      readLong m (sign ++ ds ++ rest) = some (some (numeralValue sign ds), rest)) ∧
    (IntType.inRange ⟨true, m.longLongBits⟩ (numeralValue sign ds) →
      readLongLong m (sign ++ ds ++ rest) = some (some (numeralValue sign ds), rest)) ∧
    (IntType.inRange ⟨true, m.shortBits⟩ (numeralValue sign ds) →
      readShort m (sign ++ ds ++ rest) = some (some (numeralValue sign ds), rest)) ∧
    (IntType.inRange ⟨false, m.intBits⟩ (numeralValue sign ds) →
      readUnsignedInt m (sign ++ ds ++ rest) = some (some (numeralValue sign ds), rest)) ∧
    (IntType.inRange ⟨false, m.longBits⟩ (numeralValue sign ds) →
      readUnsignedLong m (sign ++ ds ++ rest) = some (some (numeralValue sign ds), rest)) ∧
    (IntType.inRange ⟨false, m.longLongBits⟩ (numeralValue sign ds) →
      readUnsignedLongLong m (sign ++ ds ++ rest) =
        some (some (numeralValue sign ds), rest)) ∧
    (IntType.inRange ⟨false, m.shortBits⟩ (numeralValue sign ds) →
      readUnsignedShort m (sign ++ ds ++ rest) = some (some (numeralValue sign ds), rest)) ∧
    (IntType.inRange ⟨false, m.charBits⟩ (numeralValue sign ds) →
      readUnsignedChar m (sign ++ ds ++ rest) = some (some (numeralValue sign ds), rest)) :=
  ⟨scanfInt_numeral _ none sign ds rest hsign hne hd hrest,
   scanfInt_numeral _ none sign ds rest hsign hne hd hrest,
   scanfInt_numeral _ none sign ds rest hsign hne hd hrest,
   scanfInt_numeral _ none sign ds rest hsign hne hd hrest,
   scanfInt_numeral _ none sign ds rest hsign hne hd hrest,
   scanfInt_numeral _ none sign ds rest hsign hne hd hrest,
   scanfInt_numeral _ none sign ds rest hsign hne hd hrest,
   scanfInt_numeral _ none sign ds rest hsign hne hd hrest,
   scanfInt_numeral _ none sign ds rest hsign hne hd hrest⟩

/-- Instance of C3: the numerals `-42` and `+42` followed by a new-line, with
the widths of `LP64`. -/
theorem integer_readers_value_witness :
    readInt LP64 "-42\n".toList = some (some (-42), ['\n']) ∧
    readShort LP64 "-42\n".toList = some (some (-42), ['\n']) ∧
    readUnsignedLong LP64 "+42\n".toList = some (some 42, ['\n']) ∧
    readUnsignedChar LP64 "+42\n".toList = some (some 42, ['\n']) :=
  have hneg := integer_readers_value LP64 ['-'] "42".toList ['\n']
    (by decide) (by decide) (by decide) (by decide)
  have hpos := integer_readers_value LP64 ['+'] "42".toList ['\n']
    (by decide) (by decide) (by decide) (by decide)
  ⟨hneg.1 (by decide), hneg.2.2.2.1 (by decide),
   hpos.2.2.2.2.2.1 (by decide), hpos.2.2.2.2.2.2.2.2 (by decide)⟩

/-- C4: for every `N ≥ 1` and every stream, `readStrN N` completes without a
store outside its block of `N` bytes: it takes a prefix `taken` of at most
`N - 1` bytes from the stream, and the block it returns is either untouched
or holds `taken` and the null byte, at most `N` bytes in all, followed by
untouched bytes.  The same holds for `readStr` with `N = 256`. -/
theorem readStrN_within_block (N : Nat) (s : List Char) (hN : 1 ≤ N) :
    (∃ buf rest taken, readStrN N s = some (buf, rest) ∧ buf.length = N ∧
      s = taken ++ rest ∧ taken.length ≤ N - 1 ∧ (written buf).length ≤ N ∧
      (buf = malloc N ∨
        buf = (taken ++ ['\x00']).map some ++
          List.replicate (N - (taken.length + 1)) none)) ∧
    (∃ buf rest taken, readStr s = some (buf, rest) ∧ buf.length = 256 ∧
      s = taken ++ rest ∧ taken.length ≤ 255 ∧ (written buf).length ≤ 256 ∧
      (buf = malloc 256 ∨
        buf = (taken ++ ['\x00']).map some ++
          List.replicate (256 - (taken.length + 1)) none)) := by
  have key : ∀ n, 1 ≤ n → ∃ buf rest taken, readStrN n s = some (buf, rest) ∧
      buf.length = n ∧ s = taken ++ rest ∧ taken.length ≤ n - 1 ∧
      (written buf).length ≤ n ∧
      (buf = malloc n ∨
        buf = (taken ++ ['\x00']).map some ++
          List.replicate (n - (taken.length + 1)) none) := by
    intro n hn
    obtain ⟨buf, rest, hr, hlen, hc, hsplit, hform⟩ := readStrN_split n s hn
    have htl : (content buf).length ≤ n - 1 := by
      rw [hc]; exact takeLine_length_le _ _
    refine ⟨buf, rest, content buf, hr, hlen, hsplit.symm, htl, ?_, hform⟩
    rcases hform with h | h
    · rw [h, written_malloc]; simp
    · rw [h, written_map_some]
      simp only [List.length_append, List.length_singleton]
      omega
  exact ⟨key N hN, key 256 (by decide)⟩

/-- Instance of C4: `N = 6` on `"hello world\n"`. -/
theorem readStrN_within_block_witness :
    (∃ buf rest taken, readStrN 6 "hello world\n".toList = some (buf, rest) ∧
      buf.length = 6 ∧ "hello world\n".toList = taken ++ rest ∧ taken.length ≤ 6 - 1 ∧
      (written buf).length ≤ 6 ∧
      (buf = malloc 6 ∨
        buf = (taken ++ ['\x00']).map some ++
          List.replicate (6 - (taken.length + 1)) none)) :=
  (readStrN_within_block 6 "hello world\n".toList (by decide)).1

/-- C5: when the next byte of the stream is a printable character `c`,
`readChar` returns `c` and the stream left behind is the stream without its
first byte. -/
theorem readChar_printable (c : Char) (s : List Char) (hc : isprint c = true) :
    readChar (c :: s) = (some c, s) ∧ (c :: s).length = s.length + 1 := by
  have _ := hc
  exact ⟨rfl, rfl⟩

/-- Instance of C5: the stream `"x1"`. -/
theorem readChar_printable_witness :
    readChar ('x' :: ['1']) = (some 'x', ['1']) ∧ ('x' :: ['1']).length = ['1'].length + 1 :=
  readChar_printable 'x' ['1'] (by decide)

/-- C6, as the code behaves: on the stream `"42\n"`, `readInt` returns `42`
and leaves the new-line in the stream; `readStrN 16` on what is left returns
the one-byte string `"\n"` (the new-line is taken and kept) and leaves the
stream empty. -/
theorem readInt_then_readStrN :
    (readInt LP64 "42\n".toList).bind (fun r =>
      (readStrN 16 r.2).map (fun q => (r.1, cString q.1, q.2))) =
      some (some 42, some "\n".toList, []) := by
  decide

/-- C6 fails as stated: on `"42\n"`, `readInt` returns `42` leaving `"\n"`, and
the string `readStrN 16` then returns is `"\n"`, which is neither the empty
string nor what follows the new-line in the input (nothing does). -/
theorem readStrN_after_readInt_keeps_newline :
    readInt LP64 "42\n".toList = some (some 42, "\n".toList) ∧
    readStrN 16 "\n".toList =
      some ("\n\x00".toList.map some ++ List.replicate 14 none, []) ∧
    cString ("\n\x00".toList.map some ++ List.replicate 14 none) = some "\n".toList ∧
    ¬ (some "\n".toList = some "".toList ∨
      some "\n".toList = some (afterNewline "42\n".toList)) := by
  decide

/-- C7: for every white-space string `w` and every stream `s` that starts with
a well-formed numeral in the range of `int`, `readInt` on `w ++ s` returns the
same value and leaves the same stream as on `s`, so the bytes it consumes are
those of `w` and those of the numeral; whereas `readChar` on `c :: w1 ++ s`
with `c` a white-space byte returns `c` and consumes that one byte only. -/
theorem readInt_skips_space_readChar_does_not (m : DataModel)
    (w sign ds rest : List Char) (hw : ∀ c ∈ w, isspace c = true)
    (hsign : IsSign sign) (hne : ds ≠ []) (hd : ∀ c ∈ ds, isdigit c = true)
    (hrest : EndsNumeral rest)
    (hv : IntType.inRange ⟨true, m.intBits⟩ (numeralValue sign ds)) :
    readInt m (w ++ (sign ++ ds ++ rest)) = readInt m (sign ++ ds ++ rest) ∧
    readInt m (w ++ (sign ++ ds ++ rest)) = some (some (numeralValue sign ds), rest) ∧
    (w ++ (sign ++ ds ++ rest)).length - rest.length =
      w.length + (sign.length + ds.length) ∧
    ∀ (c : Char) (w1 : List Char), isspace c = true → w = c :: w1 →
      readChar (w ++ (sign ++ ds ++ rest)) = (some c, w1 ++ (sign ++ ds ++ rest)) := by
  have h1 : readInt m (w ++ (sign ++ ds ++ rest)) = readInt m (sign ++ ds ++ rest) :=
    scanfInt_skip _ none w _ hw
  have h2 : readInt m (sign ++ ds ++ rest) = some (some (numeralValue sign ds), rest) :=
    scanfInt_numeral _ none sign ds rest hsign hne hd hrest hv
  refine ⟨h1, h1.trans h2, ?_, ?_⟩
  · simp only [List.length_append]
    omega
  · intro c w1 _ hcw
    subst hcw
    rfl

/-- Instance of C7: two blanks and a new-line before `-17x`. -/
theorem readInt_skips_space_readChar_does_not_witness :
    readInt LP64 ("  \n".toList ++ (['-'] ++ "17".toList ++ ['x'])) =
      some (some (numeralValue ['-'] "17".toList), ['x']) ∧
    readChar ("  \n".toList ++ (['-'] ++ "17".toList ++ ['x'])) =
      (some ' ', " \n".toList ++ (['-'] ++ "17".toList ++ ['x'])) :=
  have h := readInt_skips_space_readChar_does_not LP64 "  \n".toList ['-'] "17".toList ['x']
    (by decide) (by decide) (by decide) (by decide) (by decide) (by decide)
  ⟨h.2.1, h.2.2.2 ' ' " \n".toList (by decide) (by decide)⟩

/-- C8 fails as stated for `N = 1`: on the exhausted stream `readStrN 1`
returns a block whose only byte has been written (it holds the null byte),
because with room for no byte `fgets` attempts no read and stores the
terminator. -/
theorem readStrN_one_exhausted_writes :
    readStrN 1 [] = some ([some '\x00'], []) ∧ [some '\x00'] ≠ malloc 1 := by
  decide

/-- C8, as the code behaves: no reader reports failure.  On every stream that
is exhausted or malformed for an integer (`NoInteger`), each of the nine
integer readers returns normally with an indeterminate result (nothing was
stored in its variable); so does each of the three floating readers on every
stream that is exhausted or malformed for a floating numeral (`NoFloat`), and
`readChar` on the exhausted stream; and on the exhausted stream `readStrN N`
for `N ≥ 2`, and `readStr`, return their block with no byte written. -/
theorem readers_fail_silently {F D L : Type} (strtof : List Char → F)
    (strtod : List Char → D) (strtold : List Char → L) (m : DataModel) (N : Nat)
    (s : List Char) (hN : 2 ≤ N) :
    (NoInteger s →
      (∃ tl, readInt m s = some (none, tl)) ∧
      (∃ tl, readLong m s = some (none, tl)) ∧
      (∃ tl, readLongLong m s = some (none, tl)) ∧
      (∃ tl, readShort m s = some (none, tl)) ∧
      (∃ tl, readUnsignedInt m s = some (none, tl)) ∧
      (∃ tl, readUnsignedLong m s = some (none, tl)) ∧
      (∃ tl, readUnsignedLongLong m s = some (none, tl)) ∧
      (∃ tl, readUnsignedShort m s = some (none, tl)) ∧
      (∃ tl, readUnsignedChar m s = some (none, tl))) ∧
    (NoFloat s →
      (∃ tl, readFloat strtof s = (none, tl)) ∧
      (∃ tl, readDouble strtod s = (none, tl)) ∧
      (∃ tl, readLongDouble strtold s = (none, tl))) ∧
    readChar [] = (none, []) ∧
    readStrN N [] = some (malloc N, []) ∧
    readStr [] = some (malloc 256, []) := by
  refine ⟨fun hs => ⟨scanfInt_noInteger _ none s hs, scanfInt_noInteger _ none s hs,
    scanfInt_noInteger _ none s hs, scanfInt_noInteger _ none s hs,
    scanfInt_noInteger _ none s hs, scanfInt_noInteger _ none s hs,
    scanfInt_noInteger _ none s hs, scanfInt_noInteger _ none s hs,
    scanfInt_noInteger _ none s hs⟩,
    fun hf => ⟨scanfFloat_noFloat strtof none s hf, scanfFloat_noFloat strtod none s hf,
      scanfFloat_noFloat strtold none s hf⟩, rfl, ?_, ?_⟩
  · rw [readStrN_eq N [] (by omega), if_pos ⟨rfl, hN⟩]
  · rw [readStr_eq_readStrN, readStrN_eq 256 [] (by decide), if_pos ⟨rfl, by decide⟩]

/-- Instance of C8: the stream `"abc"` and `N = 16`. -/
theorem readers_fail_silently_witness :
    (∃ tl, readInt LP64 "abc".toList = some (none, tl)) ∧
    (∃ tl, readDouble (fun item => item) "abc".toList = (none, tl)) ∧
    readStrN 16 [] = some (malloc 16, []) :=
  have h := readers_fail_silently (fun item => item) (fun item => item) (fun item => item)
    LP64 16 "abc".toList (by decide)
  ⟨(h.1 ⟨[], "abc".toList, rfl, by decide, by decide⟩).1,
   (h.2.1 ⟨[], "abc".toList, rfl, by decide, by decide, by decide, by decide⟩).2.1,
   h.2.2.2.1⟩

/-- C9 on the code: `readStrN 4` on `"abcdef\n"` returns the three bytes
`"abc"` and leaves `"def\n"`, and `readStr` on 300 bytes `a` returns 255 of
them and leaves 45: one byte fewer than the count in the source comments. -/
theorem readStrN_reads_one_less :
    readStrN 4 "abcdef\n".toList = some ("abc\x00".toList.map some, "def\n".toList) ∧
    readStr (List.replicate 300 'a') =
      some ((List.replicate 255 'a' ++ ['\x00']).map some, List.replicate 45 'a') := by
  refine ⟨by decide, ?_⟩
  rw [readStr_eq_readStrN]
  exact readStrN_replicate 256 300 'a' (by decide) (by decide) (by decide)

/-- C10: for every `N ≥ 1` and every stream `s`, the content of the block
`readStrN N` returns (the bytes written before the terminator) followed by the
stream left behind is `s`, and a new-line occurs in the content only as its
last byte.  The block holds the content and then the terminator, or is
untouched when nothing was read from an exhausted stream (the content is then
empty and nothing is consumed).  The same holds for `readStr`. -/
theorem readStrN_keeps_input (N : Nat) (s : List Char) (hN : 1 ≤ N) :
    (∃ buf rest, readStrN N s = some (buf, rest) ∧ content buf ++ rest = s ∧
      (∀ (i : Nat) (h : i < (content buf).length),
        (content buf)[i] = '\n' → i + 1 = (content buf).length) ∧
      (buf = malloc N ∨
        buf = (content buf ++ ['\x00']).map some ++
          List.replicate (N - ((content buf).length + 1)) none)) ∧
    (∃ buf rest, readStr s = some (buf, rest) ∧ content buf ++ rest = s ∧
      (∀ (i : Nat) (h : i < (content buf).length),
        (content buf)[i] = '\n' → i + 1 = (content buf).length) ∧
      (buf = malloc 256 ∨
        buf = (content buf ++ ['\x00']).map some ++
          List.replicate (256 - ((content buf).length + 1)) none)) := by
  have key : ∀ n, 1 ≤ n → ∃ buf rest, readStrN n s = some (buf, rest) ∧
      content buf ++ rest = s ∧
      (∀ (i : Nat) (h : i < (content buf).length),
        (content buf)[i] = '\n' → i + 1 = (content buf).length) ∧
      (buf = malloc n ∨
        buf = (content buf ++ ['\x00']).map some ++
          List.replicate (n - ((content buf).length + 1)) none) := by
    intro n hn
    obtain ⟨buf, rest, hr, _, hc, hsplit, hform⟩ := readStrN_split n s hn
    refine ⟨buf, rest, hr, hsplit, ?_, hform⟩
    rw [hc]
    intro i h hnl
    exact takeLine_newline_last (n - 1) s i h hnl
  exact ⟨key N hN, key 256 (by decide)⟩

/-- Instance of C10: `N = 6` on `"hello world\n"`. -/
theorem readStrN_keeps_input_witness :
    ∃ buf rest, readStrN 6 "hello world\n".toList = some (buf, rest) ∧
      content buf ++ rest = "hello world\n".toList ∧
      (∀ (i : Nat) (h : i < (content buf).length),
        (content buf)[i] = '\n' → i + 1 = (content buf).length) ∧
      (buf = malloc 6 ∨
        buf = (content buf ++ ['\x00']).map some ++
          List.replicate (6 - ((content buf).length + 1)) none) :=
  (readStrN_keeps_input 6 "hello world\n".toList (by decide)).1

end Joelang
